import Mathlib

set_option maxHeartbeats 1000000
set_option maxRecDepth 8000

namespace Chess

/-- The two piece colors; the source uses the characters w and b. -/
inductive Color where
  | white
  | black
deriving DecidableEq

def WHITE : Color := Color.white

def BLACK : Color := Color.black

/-- A piece is a (color, type) pair; the types are the source's characters
p, n, b, r, q, k. -/
abbrev Piece := Color × Char

/-- A board maps (row, column) to an optional piece; rows and columns are the
source's integer indices, meaningful on the range 0 to 7. -/
abbrev Board := Int → Int → Option Piece

/-- Writing one square of a board: the effect of the statement
board[r][c] = v for an in-range square. -/
def setCell (b : Board) (r c : Int) (v : Option Piece) : Board :=
  fun r' c' => if r' = r ∧ c' = c then v else b r' c'

/-- The bounds test in_bounds. -/
def in_bounds (r c : Int) : Bool :=
  decide (0 ≤ r ∧ r < 8 ∧ 0 ≤ c ∧ c < 8)

/-- The inline expression WHITE if color == BLACK else BLACK of the source. -/
def enemyOf (color : Color) : Color :=
  if color = BLACK then WHITE else BLACK

/-- Python list indexing: an index in [0, len) reads directly, an index in
[-len, 0) wraps once from the end, and anything else raises IndexError,
modelled as none. -/
def pyNth (l : List α) (i : Int) : Option α :=
  if 0 ≤ i ∧ i < l.length then l.get? i.toNat
  else if -(l.length : Int) ≤ i ∧ i < 0 then l.get? (i + l.length).toNat
  else none

/-- Reading board[r][c] on the source's list-of-lists representation; the
outer none models an IndexError escaping from the read. -/
def listCell (rows : List (List (Option Piece))) (r c : Int) : Option (Option Piece) :=
  (pyNth rows r).bind fun row => pyNth row c

/-- A list-of-lists position viewed as a Board on the in-range squares. -/
def boardOfRows (rows : List (List (Option Piece))) : Board :=
  fun r c => if in_bounds r c then (listCell rows r c).getD none else none

def backRank : List Char := ['r', 'n', 'b', 'q', 'k', 'b', 'n', 'r']

/-- The initial position exactly as initial_board builds it: black's back rank
on row 0, black pawns, four empty rows, white's pawns, white's back rank. -/
def initial_rows : List (List (Option Piece)) :=
  [backRank.map (fun p => some (BLACK, p)),
   List.replicate 8 (some (BLACK, 'p'))]
  ++ List.replicate 4 (List.replicate 8 (none : Option Piece))
  ++ [List.replicate 8 (some (WHITE, 'p')),
      backRank.map (fun p => some (WHITE, p))]

def initB : Board := boardOfRows initial_rows

/-- ASCII lower-casing, the effect of s[0].lower() on the letters the
interface uses. -/
def charLower (ch : Char) : Char :=
  if 'A' ≤ ch ∧ ch ≤ 'Z' then Char.ofNat (ch.toNat + 32) else ch

/-- The conversion algebraic_to_rc. Reading s[0] or s[1] off the end of the
text raises IndexError, and int(s[1]) raises ValueError unless the character
is a decimal digit (ASCII digits modelled); both faults are the none result. -/
def algebraic_to_rc (s : List Char) : Option (Int × Int) :=
  match s.get? 0, s.get? 1 with
  | some ch0, some ch1 =>
    if '0' ≤ ch1 ∧ ch1 ≤ '9' then
      let file : Int := ((charLower ch0).toNat : Int) - 97
      let rank : Int := ((ch1.toNat : Int) - 48) - 1
      some (7 - rank, file)
    else none
  | _, _ => none

/-- The conversion rc_to_algebraic, meaningful for in-range squares (elsewhere
str(8 - r) would not be the single character modelled here). -/
def rc_to_algebraic (r c : Int) : List Char :=
  [Char.ofNat (c + 97).toNat, Char.ofNat (8 - r + 48).toNat]

/-- One guarded probe of the attack scan: the square is on the board and holds
a piece of the given color and type. -/
def pieceAt (b : Board) (r c : Int) (color : Color) (t : Char) : Bool :=
  in_bounds r c &&
    match b r c with
    | some p => decide (p.1 = color ∧ p.2 = t)
    | none => false

/-- One ray of the attack scan: walk from (r, c) in direction (dr, dc) until
leaving the board or hitting a piece; the first piece found attacks exactly
when it has the scanning color and one of the two types. The fuel 16 exceeds
the eight squares any ray can visit, so it never runs out first. -/
def attackRay (b : Board) (byc : Color) (t1 t2 : Char) :
    Int → Int → Int → Int → Nat → Bool
  | _, _, _, _, 0 => false
  | r, c, dr, dc, fuel + 1 =>
    if in_bounds r c then
      match b r c with
      | some p => decide (p.1 = byc ∧ (p.2 = t1 ∨ p.2 = t2))
      | none => attackRay b byc t1 t2 (r + dr) (c + dc) dr dc fuel
    else false

/-- The pawn clause of is_square_attacked. -/
def pawn_attack (b : Board) (r c : Int) (byc : Color) : Bool :=
  let dir : Int := if byc = WHITE then -1 else 1
  [(-1 : Int), 1].any fun dc => pieceAt b (r - dir) (c + dc) byc 'p'

def knightOffsets : List (Int × Int) :=
  [(2,1),(1,2),(-1,2),(-2,1),(-2,-1),(-1,-2),(1,-2),(2,-1)]

/-- The knight clause of is_square_attacked. -/
def knight_attack (b : Board) (r c : Int) (byc : Color) : Bool :=
  knightOffsets.any fun d => pieceAt b (r + d.1) (c + d.2) byc 'n'

def diagDirs : List (Int × Int) := [(1,1),(1,-1),(-1,1),(-1,-1)]

def orthoDirs : List (Int × Int) := [(1,0),(-1,0),(0,1),(0,-1)]

/-- The sliding clauses of is_square_attacked: one ray per direction, looking
for the two given piece types. -/
def slide_attack (b : Board) (byc : Color) (t1 t2 : Char)
    (dirs : List (Int × Int)) (r c : Int) : Bool :=
  dirs.any fun d => attackRay b byc t1 t2 (r + d.1) (c + d.2) d.1 d.2 16

def kingOffsets : List (Int × Int) :=
  [(-1,-1),(-1,0),(-1,1),(0,-1),(0,1),(1,-1),(1,0),(1,1)]

/-- The king clause of is_square_attacked; the source's double loop visits
these eight offsets in this order. -/
def king_attack (b : Board) (r c : Int) (byc : Color) : Bool :=
  kingOffsets.any fun d => pieceAt b (r + d.1) (c + d.2) byc 'k'

/-- The attack detector is_square_attacked: pawns, knights, bishop/queen
diagonals, rook/queen lines, then the adjacent king, with the source's early
returns flattened into a disjunction. -/
def is_square_attacked (b : Board) (r c : Int) (byc : Color) : Bool :=
  pawn_attack b r c byc || knight_attack b r c byc ||
  slide_attack b byc 'b' 'q' diagDirs r c ||
  slide_attack b byc 'r' 'q' orthoDirs r c ||
  king_attack b r c byc

def intRange8 : List Int := [0, 1, 2, 3, 4, 5, 6, 7]

def allSquares : List (Int × Int) :=
  intRange8.flatMap fun r => intRange8.map fun c => (r, c)

/-- The row-major scan of find_king: the first square holding this color's
king, or none when the board has no such king. -/
def find_king (b : Board) (color : Color) : Option (Int × Int) :=
  allSquares.find? fun s =>
    match b s.1 s.2 with
    | some p => decide (p.1 = color ∧ p.2 = 'k')
    | none => false

/-- The check test in_check. On a board with no king of the color the source
raises a TypeError unpacking None; every theorem below touching that case
assumes the king exists, so the false of this branch is never relied on. -/
def in_check (b : Board) (color : Color) : Bool :=
  match find_king b color with
  | some s => is_square_attacked b s.1 s.2 (enemyOf color)
  | none => false

/-- One ray of sliding-move generation: empty squares are destinations and
the scan continues; the first occupied square is a destination exactly when
it holds an enemy piece, and the ray stops there. Fuel as in attackRay. -/
def rayMoves (b : Board) (color : Color) :
    Int → Int → Int → Int → Nat → List (Int × Int)
  | _, _, _, _, 0 => []
  | r, c, dr, dc, fuel + 1 =>
    if in_bounds r c then
      match b r c with
      | none => (r, c) :: rayMoves b color (r + dr) (c + dc) dr dc fuel
      | some p => if p.1 = color then [] else [(r, c)]
    else []

/-- Pseudo-legal destinations for one piece of the given type at (r, c),
before the self-check filter, in the source's generation order. The double
pawn push tests board[r + 2*dir][c] without a bounds check, as the source
does; it is only reached from the starting rank, where that row is 3 or 4. -/
def pseudoMoves (b : Board) (r c : Int) (color : Color) (typ : Char) :
    List (Int × Int) :=
  if typ = 'p' then
    let dir : Int := if color = WHITE then -1 else 1
    let start_row : Int := if color = WHITE then 6 else 1
    (if in_bounds (r + dir) c = true ∧ b (r + dir) c = none then
      (r + dir, c) ::
        (if r = start_row ∧ b (r + 2 * dir) c = none then [(r + 2 * dir, c)]
         else [])
    else []) ++
    [(-1 : Int), 1].filterMap (fun dc =>
      if in_bounds (r + dir) (c + dc) = true then
        match b (r + dir) (c + dc) with
        | some q => if q.1 = color then none else some (r + dir, c + dc)
        | none => none
      else none)
  else if typ = 'n' then
    knightOffsets.filterMap (fun d =>
      if in_bounds (r + d.1) (c + d.2) = true then
        match b (r + d.1) (c + d.2) with
        | none => some (r + d.1, c + d.2)
        | some q => if q.1 = color then none else some (r + d.1, c + d.2)
      else none)
  else if typ = 'b' ∨ typ = 'r' ∨ typ = 'q' then
    ((if typ = 'b' ∨ typ = 'q' then diagDirs else []) ++
     (if typ = 'r' ∨ typ = 'q' then orthoDirs else [])).flatMap
      (fun d => rayMoves b color (r + d.1) (c + d.2) d.1 d.2 16)
  else if typ = 'k' then
    kingOffsets.filterMap (fun d =>
      if in_bounds (r + d.1) (c + d.2) = true then
        match b (r + d.1) (c + d.2) with
        | none => some (r + d.1, c + d.2)
        | some q => if q.1 = color then none else some (r + d.1, c + d.2)
      else none)
  else []

/-- The hypothetical board add_move builds: the destination square is
overwritten with the source piece unchanged (a pawn stays a pawn here),
then the source square is cleared. -/
def simBoard (b : Board) (r c rr cc : Int) : Board :=
  setCell (setCell b rr cc (b r c)) r c none

/-- The self-check filter of add_move: find the mover's king on the
hypothetical board and require that the enemy color does not attack it.
With no king on the hypothetical board the source raises a TypeError; that
branch is unreachable in every theorem below, which all carry a king. -/
def moveOK (b : Board) (r c : Int) (color : Color) (m : Int × Int) : Bool :=
  let b2 := simBoard b r c m.1 m.2
  match find_king b2 color with
  | some s => !is_square_attacked b2 s.1 s.2 (enemyOf color)
  | none => false

/-- legal_moves_from for an in-range source square: empty unless the square
holds a piece of the moving color, otherwise the pseudo-legal destinations
surviving the self-check simulation, in generation order. -/
def legal_moves_from (b : Board) (r c : Int) (color : Color) :
    List (Int × Int) :=
  match b r c with
  | none => []
  | some p =>
    if p.1 ≠ color then []
    else (pseudoMoves b r c color p.2).filter (moveOK b r c color)

/-- Entry behavior of legal_moves_from on the source's concrete list-of-lists
representation: its first line reads board[r][c] with no bounds guard, using
Python list indexing, so a row or column at or beyond 8 (or below -8) raises
IndexError — modelled as none — before any move is generated. (For an index
in [-8, 0) Python would wrap this and the later raw accesses; only the
raising behavior, which is what the theorems below use, is modelled here.) -/
def legal_moves_from_py (rows : List (List (Option Piece))) (r c : Int)
    (color : Color) : Option (List (Int × Int)) :=
  match listCell rows r c with
  | none => none
  | some _ => some (legal_moves_from (boardOfRows rows) r c color)

/-- all_legal_moves: the legal moves of every piece of the color, paired with
their source squares, scanning the board row-major. -/
def all_legal_moves (b : Board) (color : Color) :
    List ((Int × Int) × (Int × Int)) :=
  intRange8.flatMap fun r => intRange8.flatMap fun c =>
    match b r c with
    | some p =>
      if p.1 = color then (legal_moves_from b r c color).map (fun m => ((r, c), m))
      else []
    | none => []

/-- The board mutation of move after validation: clear the source square; a
pawn landing on row 0 or row 7 becomes a queen of the mover's color, any
other piece is placed on the destination unchanged. The none branch mirrors
an unreachable state: move has already checked that the source square holds
a piece (on it the source line piece[1] would raise a TypeError). -/
def execBoard (b : Board) (r1 c1 r2 c2 : Int) (color : Color) : Board :=
  let b1 := setCell b r1 c1 none
  match b r1 c1 with
  | some p =>
    if p.2 = 'p' ∧ (r2 = 0 ∨ r2 = 7) then setCell b1 r2 c2 (some (color, 'q'))
    else setCell b1 r2 c2 (some p)
  | none => setCell b1 r2 c2 none

/-- The structured outcomes of move: OK, or one of the three rejection
messages, in the order the source checks them. -/
inductive MoveResult where
  | ok
  | outOfBounds
  | noOwnPiece
  | illegalMove
deriving DecidableEq

/-- The executor move. Python mutates the board list in place and returns
(ok, message); the Board component returned here is the caller-visible state
of the board argument after the call, so the ok branch carries the post-move
position while every rejection hands back the argument untouched. Both
coordinate strings are converted first, so a malformed coordinate raises —
the none result — before any check or mutation. -/
def movePy (b : Board) (src dst : List Char) (color : Color) :
    Option (Board × MoveResult) :=
  match algebraic_to_rc src, algebraic_to_rc dst with
  | some (r1, c1), some (r2, c2) =>
    if ¬(in_bounds r1 c1 = true ∧ in_bounds r2 c2 = true) then
      some (b, MoveResult.outOfBounds)
    else
      match b r1 c1 with
      | none => some (b, MoveResult.noOwnPiece)
      | some p =>
        if p.1 ≠ color then some (b, MoveResult.noOwnPiece)
        else if (r2, c2) ∈ legal_moves_from b r1 c1 color then
          some (execBoard b r1 c1 r2 c2 color, MoveResult.ok)
        else some (b, MoveResult.illegalMove)
  | _, _ => none

/-- is_checkmate: in check and without a legal move. -/
def is_checkmate (b : Board) (color : Color) : Bool :=
  if in_check b color = false then false
  else decide (all_legal_moves b color = [])

/-- is_stalemate: not in check yet without a legal move. -/
def is_stalemate (b : Board) (color : Color) : Bool :=
  if in_check b color = true then false
  else decide (all_legal_moves b color = [])

/-- Number of kings of one color among the 64 on-board squares. -/
def kingCount (b : Board) (color : Color) : Nat :=
  allSquares.countP fun s => decide (b s.1 s.2 = some (color, 'k'))

/-- Game states (position and side to move) reachable from the initial
position by alternately applying moves the generator accepts, exactly as the
source's main loop advances the game. -/
inductive Reach : Board → Color → Prop where
  | init : Reach initB WHITE
  | step {b : Board} {color : Color} {r1 c1 r2 c2 : Int} :
      Reach b color → ((r1, c1), (r2, c2)) ∈ all_legal_moves b color →
      Reach (execBoard b r1 c1 r2 c2 color) (enemyOf color)

/-- The four positions of the fool's mate line f2f3, e7e5, g2g4, d8h4 in
internal coordinates. -/
def fm1 : Board := execBoard initB 6 5 5 5 WHITE

def fm2 : Board := execBoard fm1 1 4 3 4 BLACK

def fm3 : Board := execBoard fm2 6 6 4 6 WHITE

def fm4 : Board := execBoard fm3 0 3 4 7 BLACK

/-- A three-piece checkmate: black king a8, white queen b7, white king c6 —
black is both in check and checkmated. -/
def mateB : Board := fun r c =>
  if r = 0 ∧ c = 0 then some (BLACK, 'k')
  else if r = 1 ∧ c = 1 then some (WHITE, 'q')
  else if r = 2 ∧ c = 2 then some (WHITE, 'k')
  else none

/-- A promotion position: white pawn a7, white king e1, black king h8. -/
def promoB : Board := fun r c =>
  if r = 1 ∧ c = 0 then some (WHITE, 'p')
  else if r = 7 ∧ c = 4 then some (WHITE, 'k')
  else if r = 0 ∧ c = 7 then some (BLACK, 'k')
  else none

def sqE2 : List Char := ['e', '2']

def sqE3 : List Char := ['e', '3']

def sqE4 : List Char := ['e', '4']

def sqE5 : List Char := ['e', '5']

def sqE7 : List Char := ['e', '7']

def sqF2 : List Char := ['f', '2']

def sqF3 : List Char := ['f', '3']

def sqG2 : List Char := ['g', '2']

def sqG4 : List Char := ['g', '4']

def sqD8 : List Char := ['d', '8']

def sqH4 : List Char := ['h', '4']

end Chess


namespace Chess

theorem setCell_self (b : Board) (r c : Int) (v : Option Piece) :
    setCell b r c v r c = v := by
  simp [setCell]

theorem setCell_other (b : Board) (r c : Int) (v : Option Piece) {r' c' : Int}
    (h : ¬(r' = r ∧ c' = c)) : setCell b r c v r' c' = b r' c' := by
  simp [setCell, h]

theorem in_bounds_iff (r c : Int) :
    in_bounds r c = true ↔ 0 ≤ r ∧ r < 8 ∧ 0 ≤ c ∧ c < 8 := by
  simp [in_bounds]

theorem mem_intRange8 (x : Int) : x ∈ intRange8 ↔ 0 ≤ x ∧ x < 8 := by
  simp [intRange8]
  omega

theorem mem_allSquares (s : Int × Int) :
    s ∈ allSquares ↔ in_bounds s.1 s.2 = true := by
  obtain ⟨r, c⟩ := s
  simp only [allSquares, List.mem_flatMap, List.mem_map, mem_intRange8,
    in_bounds_iff]
  constructor
  · rintro ⟨a, ha, b, hb, h⟩
    obtain ⟨rfl, rfl⟩ := Prod.mk.injEq .. ▸ h
    exact ⟨ha.1, ha.2, hb.1, hb.2⟩
  · rintro ⟨h1, h2, h3, h4⟩
    exact ⟨r, ⟨h1, h2⟩, c, ⟨h3, h4⟩, rfl⟩

theorem allSquares_nodup : allSquares.Nodup := by decide

theorem enemyOf_ne (color : Color) : enemyOf color ≠ color := by
  cases color <;> simp [enemyOf, WHITE, BLACK]

theorem enemyOf_enemyOf (color : Color) : enemyOf (enemyOf color) = color := by
  cases color <;> rfl

theorem color_eq_or (c c' : Color) : c' = c ∨ c' = enemyOf c := by
  cases c <;> cases c' <;> simp [enemyOf, WHITE, BLACK]

theorem countP_congr_fn (l : List (Int × Int)) (g g' : (Int × Int) → Bool)
    (h : ∀ s ∈ l, g' s = g s) : l.countP g' = l.countP g := by
  induction l with
  | nil => rfl
  | cons a t ih =>
    rw [List.countP_cons, List.countP_cons, h a (by simp),
      ih (fun s hs => h s (by simp [hs]))]

theorem countP_update (l : List (Int × Int)) (hnd : l.Nodup) (a : Int × Int)
    (ha : a ∈ l) (g g' : (Int × Int) → Bool)
    (hsame : ∀ s, s ≠ a → g' s = g s) :
    l.countP g' + (if g a then 1 else 0) =
      l.countP g + (if g' a then 1 else 0) := by
  induction l with
  | nil => cases ha
  | cons x t ih =>
    rw [List.countP_cons, List.countP_cons]
    rcases List.mem_cons.mp ha with rfl | hat
    · have hnot : a ∉ t := (List.nodup_cons.mp hnd).1
      have ht : t.countP g' = t.countP g :=
        countP_congr_fn t g g' (fun s hs => hsame s (fun h => hnot (h ▸ hs)))
      rw [ht]
      omega
    · have hxa : x ≠ a := by
        rintro rfl
        exact (List.nodup_cons.mp hnd).1 hat
      rw [hsame x hxa]
      have := ih (List.nodup_cons.mp hnd).2 hat
      omega

theorem countP_two_le (l : List (Int × Int)) (a b : Int × Int) (ha : a ∈ l)
    (hb : b ∈ l) (hne : a ≠ b) (g : (Int × Int) → Bool) (hga : g a = true)
    (hgb : g b = true) : 2 ≤ l.countP g := by
  induction l with
  | nil => cases ha
  | cons x t ih =>
    rw [List.countP_cons]
    rcases List.mem_cons.mp ha with rfl | hat
    · have hbt : b ∈ t := by
        rcases List.mem_cons.mp hb with h | h
        · exact absurd h.symm hne
        · exact h
      have h1 : 0 < t.countP g := List.countP_pos_iff.mpr ⟨b, hbt, hgb⟩
      have hone : (if g a then 1 else 0) = 1 := by simp [hga]
      omega
    · rcases List.mem_cons.mp hb with rfl | hbt
      · have h1 : 0 < t.countP g := List.countP_pos_iff.mpr ⟨a, hat, hga⟩
        have hone : (if g b then 1 else 0) = 1 := by simp [hgb]
        omega
      · have := ih hat hbt
        omega

theorem find_king_some {b : Board} {color : Color} {s : Int × Int}
    (h : find_king b color = some s) :
    s ∈ allSquares ∧ b s.1 s.2 = some (color, 'k') := by
  have hmem := List.mem_of_find?_eq_some h
  have hpred := List.find?_some h
  refine ⟨hmem, ?_⟩
  cases hb : b s.1 s.2 with
  | none => rw [hb] at hpred; simp at hpred
  | some p =>
    rw [hb] at hpred
    simp only [decide_eq_true_eq] at hpred
    exact congrArg some (Prod.ext hpred.1 hpred.2)

theorem find_king_eq_of_unique {b : Board} {color : Color} {s : Int × Int}
    (hcount : kingCount b color = 1) (hs : s ∈ allSquares)
    (hcell : b s.1 s.2 = some (color, 'k')) : find_king b color = some s := by
  cases hfk : find_king b color with
  | none =>
    have hall := List.find?_eq_none.mp hfk s hs
    rw [hcell] at hall
    simp at hall
  | some s0 =>
    obtain ⟨hmem0, hcell0⟩ := find_king_some hfk
    by_cases heq : s0 = s
    · rw [heq]
    · exfalso
      have h2 := countP_two_le allSquares s0 s hmem0 hs heq
        (fun t => decide (b t.1 t.2 = some (color, 'k')))
        (by simp [hcell0]) (by simp [hcell])
      rw [kingCount] at hcount
      omega

end Chess

namespace Chess

theorem pieceAt_rekind {b : Board} {r0 c0 : Int} {q : Piece} {k1 : Char}
    {byc : Color} (hb : b r0 c0 = some q) (hbyc : byc ≠ q.1) (r c : Int)
    (t : Char) :
    pieceAt (setCell b r0 c0 (some (q.1, k1))) r c byc t =
      pieceAt b r c byc t := by
  unfold pieceAt
  by_cases h : r = r0 ∧ c = c0
  · obtain ⟨rfl, rfl⟩ := h
    rw [setCell_self, hb]
    have hq : ¬(q.1 = byc) := fun hh => hbyc hh.symm
    simp [hq]
  · rw [setCell_other b r0 c0 _ h]

theorem attackRay_rekind {b : Board} {r0 c0 : Int} {q : Piece} {k1 : Char}
    {byc : Color} (hb : b r0 c0 = some q) (hbyc : byc ≠ q.1) (t1 t2 : Char) :
    ∀ (fuel : Nat) (r c dr dc : Int),
      attackRay (setCell b r0 c0 (some (q.1, k1))) byc t1 t2 r c dr dc fuel =
        attackRay b byc t1 t2 r c dr dc fuel := by
  intro fuel
  induction fuel with
  | zero => intro r c dr dc; rfl
  | succ n ih =>
    intro r c dr dc
    simp only [attackRay]
    by_cases h : r = r0 ∧ c = c0
    · obtain ⟨rfl, rfl⟩ := h
      rw [setCell_self, hb]
      have hq : ¬(q.1 = byc) := fun hh => hbyc hh.symm
      simp [hq]
    · rw [setCell_other b r0 c0 _ h]
      by_cases hin : in_bounds r c = true
      · simp only [hin, if_true]
        cases hc : b r c with
        | none => exact ih (r + dr) (c + dc) dr dc
        | some p => rfl
      · simp [hin]

theorem is_square_attacked_rekind {b : Board} {r0 c0 : Int} {q : Piece}
    {k1 : Char} {byc : Color} (hb : b r0 c0 = some q) (hbyc : byc ≠ q.1)
    (r c : Int) :
    is_square_attacked (setCell b r0 c0 (some (q.1, k1))) r c byc =
      is_square_attacked b r c byc := by
  have hpa := @pieceAt_rekind b r0 c0 q k1 byc hb hbyc
  have har := @attackRay_rekind b r0 c0 q k1 byc hb hbyc
  unfold is_square_attacked pawn_attack knight_attack slide_attack king_attack
  simp only [hpa, har]

theorem find_king_rekind {b : Board} {r0 c0 : Int} {q : Piece} {k1 : Char}
    (hb : b r0 c0 = some q) (hk0 : q.2 ≠ 'k') (hk1 : k1 ≠ 'k') (col : Color) :
    find_king (setCell b r0 c0 (some (q.1, k1))) col = find_king b col := by
  unfold find_king
  congr 1
  funext s
  by_cases h : s.1 = r0 ∧ s.2 = c0
  · have h1 : setCell b r0 c0 (some (q.1, k1)) s.1 s.2 = some (q.1, k1) := by
      rw [h.1, h.2]
      exact setCell_self b r0 c0 _
    have h2 : b s.1 s.2 = some q := by
      rw [h.1, h.2]
      exact hb
    rw [h1, h2]
    simp [hk0, hk1]
  · rw [setCell_other b r0 c0 _ h]

theorem in_check_rekind {b : Board} {r0 c0 : Int} {q : Piece} {k1 : Char}
    (hb : b r0 c0 = some q) (hk0 : q.2 ≠ 'k') (hk1 : k1 ≠ 'k') :
    in_check (setCell b r0 c0 (some (q.1, k1))) q.1 = in_check b q.1 := by
  unfold in_check
  rw [find_king_rekind hb hk0 hk1]
  cases hfk : find_king b q.1 with
  | none => rfl
  | some s => exact is_square_attacked_rekind hb (enemyOf_ne q.1) s.1 s.2

theorem exec_eq_sim {b : Board} {r1 c1 r2 c2 : Int} {color : Color} {p : Piece}
    (hp : b r1 c1 = some p) (hnp : ¬(p.2 = 'p' ∧ (r2 = 0 ∨ r2 = 7)))
    (hne : ¬(r2 = r1 ∧ c2 = c1)) :
    execBoard b r1 c1 r2 c2 color = simBoard b r1 c1 r2 c2 := by
  unfold execBoard simBoard
  rw [hp]
  dsimp only
  rw [if_neg hnp]
  funext x y
  simp only [setCell]
  by_cases h2 : x = r2 ∧ y = c2
  · by_cases h1 : x = r1 ∧ y = c1
    · exfalso
      exact hne ⟨h2.1 ▸ h1.1.symm ▸ rfl, h2.2 ▸ h1.2.symm ▸ rfl⟩
    · simp [h1, h2]
      intro ha hb
      exact hne ⟨ha, hb⟩
  · by_cases h1 : x = r1 ∧ y = c1
    · simp [h1, h2]
      intro ha hb
      exact hne ⟨ha.symm, hb.symm⟩
    · simp [h1, h2]

theorem exec_promo_eq {b : Board} {r1 c1 r2 c2 : Int} {color : Color}
    {p : Piece} (hp : b r1 c1 = some p) (hpr : p.2 = 'p' ∧ (r2 = 0 ∨ r2 = 7))
    (hne : ¬(r2 = r1 ∧ c2 = c1)) :
    execBoard b r1 c1 r2 c2 color =
      setCell (simBoard b r1 c1 r2 c2) r2 c2 (some (color, 'q')) := by
  unfold execBoard simBoard
  rw [hp]
  dsimp only
  rw [if_pos hpr]
  funext x y
  simp only [setCell]
  by_cases h2 : x = r2 ∧ y = c2
  · simp [h2]
  · by_cases h1 : x = r1 ∧ y = c1 <;> simp [h1, h2]

theorem simBoard_dst {b : Board} {r1 c1 r2 c2 : Int}
    (hne : ¬(r2 = r1 ∧ c2 = c1)) :
    simBoard b r1 c1 r2 c2 r2 c2 = b r1 c1 := by
  unfold simBoard
  rw [setCell_other _ _ _ _ hne, setCell_self]

end Chess

namespace Chess

theorem mem_legal {b : Board} {r c : Int} {color : Color} {m : Int × Int}
    (h : m ∈ legal_moves_from b r c color) :
    ∃ p, b r c = some p ∧ p.1 = color ∧
      m ∈ pseudoMoves b r c color p.2 ∧ moveOK b r c color m = true := by
  unfold legal_moves_from at h
  cases hp : b r c with
  | none =>
    rw [hp] at h
    cases h
  | some p =>
    rw [hp] at h
    dsimp only at h
    by_cases hc : p.1 ≠ color
    · rw [if_pos hc] at h
      cases h
    · rw [if_neg hc] at h
      push_neg at hc
      obtain ⟨hm, hok⟩ := List.mem_filter.mp h
      exact ⟨p, rfl, hc, hm, hok⟩

theorem mem_all_legal {b : Board} {color : Color} {r1 c1 r2 c2 : Int}
    (h : ((r1, c1), (r2, c2)) ∈ all_legal_moves b color) :
    in_bounds r1 c1 = true ∧ ∃ p, b r1 c1 = some p ∧ p.1 = color ∧
      (r2, c2) ∈ legal_moves_from b r1 c1 color := by
  unfold all_legal_moves at h
  obtain ⟨r, hr, h⟩ := List.mem_flatMap.mp h
  obtain ⟨c, hc, h⟩ := List.mem_flatMap.mp h
  cases hp : b r c with
  | none =>
    rw [hp] at h
    simp at h
  | some p =>
    rw [hp] at h
    dsimp only at h
    by_cases hcol : p.1 = color
    · rw [if_pos hcol] at h
      obtain ⟨m, hm, heq⟩ := List.mem_map.mp h
      injection heq with ha hb
      injection ha with ha1 ha2
      subst ha1
      subst ha2
      subst hb
      refine ⟨?_, p, hp, hcol, hm⟩
      rw [in_bounds_iff]
      have h1 := (mem_intRange8 r).mp hr
      have h2 := (mem_intRange8 c).mp hc
      exact ⟨h1.1, h1.2, h2.1, h2.2⟩
    · rw [if_neg hcol] at h
      cases h

theorem sim_not_check {b : Board} {r c : Int} {color : Color} {m : Int × Int}
    (h : moveOK b r c color m = true) :
    in_check (simBoard b r c m.1 m.2) color = false := by
  unfold moveOK at h
  dsimp only at h
  unfold in_check
  cases hfk : find_king (simBoard b r c m.1 m.2) color with
  | none => rfl
  | some s =>
    rw [hfk] at h
    dsimp only at h
    simp only [Bool.not_eq_eq_eq_not, Bool.not_true] at h
    exact h

theorem rayMoves_spec {b : Board} {color : Color} :
    ∀ (fuel : Nat) (r c dr dc x y : Int),
      (x, y) ∈ rayMoves b color r c dr dc fuel →
      ∃ k : Nat, x = r + k * dr ∧ y = c + k * dc ∧ in_bounds x y = true ∧
        (∀ j : Nat, j < k →
          in_bounds (r + j * dr) (c + j * dc) = true ∧
          b (r + j * dr) (c + j * dc) = none) ∧
        (b x y = none ∨ ∃ q, b x y = some q ∧ q.1 ≠ color) := by
  intro fuel
  induction fuel with
  | zero => intro r c dr dc x y h; cases h
  | succ n ih =>
    intro r c dr dc x y h
    simp only [rayMoves] at h
    by_cases hin : in_bounds r c = true
    · rw [if_pos hin] at h
      cases hc : b r c with
      | none =>
        rw [hc] at h
        dsimp only at h
        rcases List.mem_cons.mp h with heq | htail
        · injection heq with h1 h2
          subst h1
          subst h2
          exact ⟨0, by simp, by simp, hin,
            fun j hj => absurd hj (Nat.not_lt_zero j), Or.inl hc⟩
        · obtain ⟨k, hx, hy, hxyin, hpath, hend⟩ := ih (r + dr) (c + dc) dr dc x y htail
          refine ⟨k + 1, ?_, ?_, hxyin, ?_, hend⟩
          · rw [hx]; push_cast; ring
          · rw [hy]; push_cast; ring
          · intro j hj
            cases j with
            | zero => simpa using ⟨hin, hc⟩
            | succ i =>
              have hp := hpath i (by omega)
              have e1 : r + ((i + 1 : Nat) : Int) * dr = (r + dr) + (i : Int) * dr := by
                push_cast; ring
              have e2 : c + ((i + 1 : Nat) : Int) * dc = (c + dc) + (i : Int) * dc := by
                push_cast; ring
              rw [e1, e2]
              exact hp
      | some q =>
        rw [hc] at h
        dsimp only at h
        by_cases hq : q.1 = color
        · rw [if_pos hq] at h
          cases h
        · rw [if_neg hq] at h
          have heq := List.mem_singleton.mp h
          injection heq with h1 h2
          subst h1
          subst h2
          exact ⟨0, by simp, by simp, hin,
            fun j hj => absurd hj (Nat.not_lt_zero j), Or.inr ⟨q, hc, hq⟩⟩
    · rw [if_neg hin] at h
      cases h

theorem attackRay_reaches {b : Board} {byc : Color} {t1 t2 : Char}
    {dr dc : Int} :
    ∀ (m : Nat) (r c : Int) (fuel : Nat), 1 ≤ m → m < fuel →
      (∀ j : Nat, 1 ≤ j → j < m →
        in_bounds (r + j * dr) (c + j * dc) = true ∧
        b (r + j * dr) (c + j * dc) = none) →
      in_bounds (r + m * dr) (c + m * dc) = true →
      (∃ p, b (r + m * dr) (c + m * dc) = some p ∧ p.1 = byc ∧
        (p.2 = t1 ∨ p.2 = t2)) →
      attackRay b byc t1 t2 (r + dr) (c + dc) dr dc fuel = true := by
  intro m
  induction m with
  | zero => intro r c fuel h1; exact absurd h1 (by omega)
  | succ mm ihm =>
    intro r c fuel h1 hf hpath hend hp
    obtain ⟨p, hpc, hpb, hpk⟩ := hp
    cases fuel with
    | zero => omega
    | succ nf =>
      simp only [attackRay]
      cases mm with
      | zero =>
        have e1 : r + ((0 + 1 : Nat) : Int) * dr = r + dr := by push_cast; ring
        have e2 : c + ((0 + 1 : Nat) : Int) * dc = c + dc := by push_cast; ring
        rw [e1, e2] at hend hpc
        rw [if_pos hend, hpc]
        simp [hpb, hpk]
      | succ k =>
        have h0 := hpath 1 (by omega) (by omega)
        have e1 : r + ((1 : Nat) : Int) * dr = r + dr := by push_cast; ring
        have e2 : c + ((1 : Nat) : Int) * dc = c + dc := by push_cast; ring
        rw [e1, e2] at h0
        rw [if_pos h0.1, h0.2]
        apply ihm (r + dr) (c + dc) nf (by omega) (by omega)
        · intro j hj1 hj2
          have hpj := hpath (j + 1) (by omega) (by omega)
          have e3 : r + ((j + 1 : Nat) : Int) * dr = (r + dr) + (j : Int) * dr := by
            push_cast; ring
          have e4 : c + ((j + 1 : Nat) : Int) * dc = (c + dc) + (j : Int) * dc := by
            push_cast; ring
          rw [e3, e4] at hpj
          exact hpj
        · have e3 : r + ((k + 1 + 1 : Nat) : Int) * dr = (r + dr) + ((k + 1 : Nat) : Int) * dr := by
            push_cast; ring
          have e4 : c + ((k + 1 + 1 : Nat) : Int) * dc = (c + dc) + ((k + 1 : Nat) : Int) * dc := by
            push_cast; ring
          rw [e3, e4] at hend
          exact hend
        · have e3 : r + ((k + 1 + 1 : Nat) : Int) * dr = (r + dr) + ((k + 1 : Nat) : Int) * dr := by
            push_cast; ring
          have e4 : c + ((k + 1 + 1 : Nat) : Int) * dc = (c + dc) + ((k + 1 : Nat) : Int) * dc := by
            push_cast; ring
          rw [e3, e4] at hpc
          exact ⟨p, hpc, hpb, hpk⟩

theorem ray_to_attack {b : Board} {color : Color} {r1 c1 d1 d2 x y : Int}
    {p : Piece} {byc : Color} {t1 t2 : Char}
    (hin : in_bounds r1 c1 = true)
    (hd1 : d1 = -1 ∨ d1 = 0 ∨ d1 = 1) (hd2 : d2 = -1 ∨ d2 = 0 ∨ d2 = 1)
    (hdnz : ¬(d1 = 0 ∧ d2 = 0))
    (hmem : (x, y) ∈ rayMoves b color (r1 + d1) (c1 + d2) d1 d2 16)
    (hsrc : b r1 c1 = some p) (hpc : p.1 = byc) (hpk : p.2 = t1 ∨ p.2 = t2) :
    attackRay b byc t1 t2 (x + -d1) (y + -d2) (-d1) (-d2) 16 = true := by
  obtain ⟨k, hx, hy, hxyin, hpath, _⟩ := rayMoves_spec 16 _ _ _ _ _ _ hmem
  have hxx : x = r1 + ((k : Int) + 1) * d1 := by rw [hx]; ring
  have hyy : y = c1 + ((k : Int) + 1) * d2 := by rw [hy]; ring
  have hbord : (k : Int) + 1 ≤ 7 := by
    rw [in_bounds_iff] at hin hxyin
    rcases hd1 with rfl | rfl | rfl <;> rcases hd2 with rfl | rfl | rfl <;>
      omega
  apply attackRay_reaches (k + 1) x y 16 (by omega) (by omega)
  · intro j hj1 hj2
    have hjle : j ≤ k := by omega
    have ej : x + (j : Int) * -d1 = (r1 + d1) + ((k - j : Nat) : Int) * d1 := by
      rw [hxx, Nat.cast_sub hjle]; ring
    have ej2 : y + (j : Int) * -d2 = (c1 + d2) + ((k - j : Nat) : Int) * d2 := by
      rw [hyy, Nat.cast_sub hjle]; ring
    rw [ej, ej2]
    exact hpath (k - j) (by omega)
  · have e1 : x + ((k + 1 : Nat) : Int) * -d1 = r1 := by rw [hxx]; push_cast; ring
    have e2 : y + ((k + 1 : Nat) : Int) * -d2 = c1 := by rw [hyy]; push_cast; ring
    rw [e1, e2]
    exact hin
  · have e1 : x + ((k + 1 : Nat) : Int) * -d1 = r1 := by rw [hxx]; push_cast; ring
    have e2 : y + ((k + 1 : Nat) : Int) * -d2 = c1 := by rw [hyy]; push_cast; ring
    rw [e1, e2]
    exact ⟨p, hsrc, hpc, hpk⟩

end Chess

namespace Chess

theorem mem_offsetMoves {b : Board} {r c : Int} {color : Color}
    {offs : List (Int × Int)} {x y : Int}
    (h : (x, y) ∈ offs.filterMap (fun d =>
      if in_bounds (r + d.1) (c + d.2) = true then
        match b (r + d.1) (c + d.2) with
        | none => some (r + d.1, c + d.2)
        | some q => if q.1 = color then none else some (r + d.1, c + d.2)
      else none)) :
    ∃ d ∈ offs, x = r + d.1 ∧ y = c + d.2 ∧ in_bounds x y = true ∧
      (b x y = none ∨ ∃ q, b x y = some q ∧ q.1 ≠ color) := by
  obtain ⟨d, hd, hf⟩ := List.mem_filterMap.mp h
  refine ⟨d, hd, ?_⟩
  by_cases hin : in_bounds (r + d.1) (c + d.2) = true
  · rw [if_pos hin] at hf
    cases hcell : b (r + d.1) (c + d.2) with
    | none =>
      rw [hcell] at hf
      dsimp only at hf
      injection hf with hf
      injection hf with h1 h2
      subst h1
      subst h2
      exact ⟨rfl, rfl, hin, Or.inl hcell⟩
    | some q =>
      rw [hcell] at hf
      dsimp only at hf
      by_cases hq : q.1 = color
      · rw [if_pos hq] at hf
        cases hf
      · rw [if_neg hq] at hf
        injection hf with hf
        injection hf with h1 h2
        subst h1
        subst h2
        exact ⟨rfl, rfl, hin, Or.inr ⟨q, hcell, hq⟩⟩
  · rw [if_neg hin] at hf
    cases hf

theorem mem_pawn {b : Board} {r c : Int} {color : Color} {x y : Int}
    (h : (x, y) ∈ pseudoMoves b r c color 'p') :
    (x = r + (if color = WHITE then (-1 : Int) else 1) ∧ y = c ∧
      b x y = none ∧ in_bounds x y = true) ∨
    (x = r + 2 * (if color = WHITE then (-1 : Int) else 1) ∧ y = c ∧
      r = (if color = WHITE then (6 : Int) else 1) ∧ b x y = none ∧
      in_bounds (r + (if color = WHITE then (-1 : Int) else 1)) c = true) ∨
    (∃ dc : Int, (dc = -1 ∨ dc = 1) ∧
      x = r + (if color = WHITE then (-1 : Int) else 1) ∧ y = c + dc ∧
      in_bounds x y = true ∧ ∃ q, b x y = some q ∧ q.1 ≠ color) := by
  unfold pseudoMoves at h
  rw [if_pos rfl] at h
  dsimp only at h
  rcases List.mem_append.mp h with hpush | hcap
  · by_cases hc1 : in_bounds (r + (if color = WHITE then (-1 : Int) else 1)) c = true ∧
        b (r + (if color = WHITE then (-1 : Int) else 1)) c = none
    · rw [if_pos hc1] at hpush
      rcases List.mem_cons.mp hpush with heq | hdub
      · injection heq with h1 h2
        subst h1
        subst h2
        exact Or.inl ⟨rfl, rfl, hc1.2, hc1.1⟩
      · by_cases hc2 : r = (if color = WHITE then (6 : Int) else 1) ∧
            b (r + 2 * (if color = WHITE then (-1 : Int) else 1)) c = none
        · rw [if_pos hc2] at hdub
          have heq := List.mem_singleton.mp hdub
          injection heq with h1 h2
          subst h1
          subst h2
          exact Or.inr (Or.inl ⟨rfl, rfl, hc2.1, hc2.2, hc1.1⟩)
        · rw [if_neg hc2] at hdub
          cases hdub
    · rw [if_neg hc1] at hpush
      cases hpush
  · obtain ⟨dc, hdc, hf⟩ := List.mem_filterMap.mp hcap
    have hdc2 : dc = -1 ∨ dc = 1 := by
      rcases List.mem_cons.mp hdc with h1 | h1
      · exact Or.inl h1
      · exact Or.inr (List.mem_singleton.mp h1)
    by_cases hin : in_bounds (r + (if color = WHITE then (-1 : Int) else 1)) (c + dc) = true
    · rw [if_pos hin] at hf
      cases hcell : b (r + (if color = WHITE then (-1 : Int) else 1)) (c + dc) with
      | none =>
        rw [hcell] at hf
        cases hf
      | some q =>
        rw [hcell] at hf
        dsimp only at hf
        by_cases hq : q.1 = color
        · rw [if_pos hq] at hf
          cases hf
        · rw [if_neg hq] at hf
          injection hf with hf
          injection hf with h1 h2
          subst h1
          subst h2
          exact Or.inr (Or.inr ⟨dc, hdc2, rfl, rfl, hin, q, hcell, hq⟩)
    · rw [if_neg hin] at hf
      cases hf

theorem mem_knight {b : Board} {r c : Int} {color : Color} {x y : Int}
    (h : (x, y) ∈ pseudoMoves b r c color 'n') :
    ∃ d ∈ knightOffsets, x = r + d.1 ∧ y = c + d.2 ∧ in_bounds x y = true ∧
      (b x y = none ∨ ∃ q, b x y = some q ∧ q.1 ≠ color) := by
  unfold pseudoMoves at h
  rw [if_neg (by decide), if_pos rfl] at h
  exact mem_offsetMoves h

theorem mem_king {b : Board} {r c : Int} {color : Color} {x y : Int}
    (h : (x, y) ∈ pseudoMoves b r c color 'k') :
    ∃ d ∈ kingOffsets, x = r + d.1 ∧ y = c + d.2 ∧ in_bounds x y = true ∧
      (b x y = none ∨ ∃ q, b x y = some q ∧ q.1 ≠ color) := by
  unfold pseudoMoves at h
  rw [if_neg (by decide), if_neg (by decide), if_neg (by decide),
    if_pos rfl] at h
  exact mem_offsetMoves h

theorem mem_slider {b : Board} {r c : Int} {color : Color} {typ : Char}
    {x y : Int} (htyp : typ = 'b' ∨ typ = 'r' ∨ typ = 'q')
    (h : (x, y) ∈ pseudoMoves b r c color typ) :
    ∃ d : Int × Int,
      ((d ∈ diagDirs ∧ (typ = 'b' ∨ typ = 'q')) ∨
       (d ∈ orthoDirs ∧ (typ = 'r' ∨ typ = 'q'))) ∧
      (x, y) ∈ rayMoves b color (r + d.1) (c + d.2) d.1 d.2 16 := by
  unfold pseudoMoves at h
  have hp : ¬(typ = 'p') := by rcases htyp with rfl | rfl | rfl <;> decide
  have hn : ¬(typ = 'n') := by rcases htyp with rfl | rfl | rfl <;> decide
  rw [if_neg hp, if_neg hn, if_pos htyp] at h
  obtain ⟨d, hd, hray⟩ := List.mem_flatMap.mp h
  refine ⟨d, ?_, hray⟩
  rcases List.mem_append.mp hd with h1 | h2
  · by_cases hbq : typ = 'b' ∨ typ = 'q'
    · rw [if_pos hbq] at h1
      exact Or.inl ⟨h1, hbq⟩
    · rw [if_neg hbq] at h1
      cases h1
  · by_cases hrq : typ = 'r' ∨ typ = 'q'
    · rw [if_pos hrq] at h2
      exact Or.inr ⟨h2, hrq⟩
    · rw [if_neg hrq] at h2
      cases h2

theorem pseudo_other {b : Board} {r c : Int} {color : Color} {typ : Char}
    (hp : ¬(typ = 'p')) (hn : ¬(typ = 'n'))
    (hs : ¬(typ = 'b' ∨ typ = 'r' ∨ typ = 'q')) (hk : ¬(typ = 'k')) :
    pseudoMoves b r c color typ = [] := by
  unfold pseudoMoves
  rw [if_neg hp, if_neg hn, if_neg hs, if_neg hk]

theorem pseudo_shape {b : Board} {r c : Int} {color : Color} {typ : Char}
    {x y : Int} (hin : in_bounds r c = true)
    (h : (x, y) ∈ pseudoMoves b r c color typ) :
    in_bounds x y = true ∧ ¬(x = r ∧ y = c) ∧
      (b x y = none ∨ ∃ q, b x y = some q ∧ q.1 ≠ color) := by
  by_cases hP : typ = 'p'
  · subst hP
    rcases mem_pawn h with ⟨hx, hy, hcell, hbnd⟩ | ⟨hx, hy, hrow, hcell, hbnd⟩ |
      ⟨dc, hdc, hx, hy, hbnd, hcell⟩
    · refine ⟨hbnd, ?_, Or.inl hcell⟩
      rintro ⟨h1, -⟩
      by_cases hw : color = WHITE <;> simp [hw] at hx <;> omega
    · subst hy
      refine ⟨?_, ?_, Or.inl hcell⟩
      · rw [in_bounds_iff] at hbnd ⊢
        by_cases hw : color = WHITE <;> simp [hw] at hx hrow <;> omega
      · rintro ⟨h1, -⟩
        by_cases hw : color = WHITE <;> simp [hw] at hx hrow <;> omega
    · refine ⟨hbnd, ?_, Or.inr hcell⟩
      rintro ⟨h1, -⟩
      by_cases hw : color = WHITE <;> simp [hw] at hx <;> omega
  · by_cases hN : typ = 'n'
    · subst hN
      obtain ⟨d, hd, hx, hy, hbnd, hcell⟩ := mem_knight h
      refine ⟨hbnd, ?_, hcell⟩
      rintro ⟨h1, h2⟩
      simp only [knightOffsets, List.mem_cons, List.not_mem_nil, or_false] at hd
      rcases hd with rfl | rfl | rfl | rfl | rfl | rfl | rfl | rfl <;>
        simp at hx hy <;> omega
    · by_cases hS : typ = 'b' ∨ typ = 'r' ∨ typ = 'q'
      · obtain ⟨d, hdopt, hray⟩ := mem_slider hS h
        obtain ⟨k, hx, hy, hbnd, hpath, hcell⟩ := rayMoves_spec 16 _ _ _ _ _ _ hray
        refine ⟨hbnd, ?_, hcell⟩
        rintro ⟨h1, h2⟩
        have hdmem : d ∈ diagDirs ∨ d ∈ orthoDirs := by
          rcases hdopt with ⟨hm, -⟩ | ⟨hm, -⟩
          exacts [Or.inl hm, Or.inr hm]
        rcases hdmem with hm | hm <;>
          simp only [diagDirs, orthoDirs, List.mem_cons, List.not_mem_nil, or_false] at hm <;>
          rcases hm with rfl | rfl | rfl | rfl <;> simp at hx hy <;> omega
      · by_cases hK : typ = 'k'
        · subst hK
          obtain ⟨d, hd, hx, hy, hbnd, hcell⟩ := mem_king h
          refine ⟨hbnd, ?_, hcell⟩
          rintro ⟨h1, h2⟩
          simp only [kingOffsets, List.mem_cons, List.not_mem_nil, or_false] at hd
          rcases hd with rfl | rfl | rfl | rfl | rfl | rfl | rfl | rfl <;>
            simp at hx hy <;> omega
        · rw [pseudo_other hP hN hS hK] at h
          cases h

theorem pawn_rows {b : Board} {r c : Int} {color : Color} {x y : Int}
    (h : (x, y) ∈ pseudoMoves b r c color 'p') :
    x = r + (if color = WHITE then (-1 : Int) else 1) ∨
    x = r + 2 * (if color = WHITE then (-1 : Int) else 1) := by
  rcases mem_pawn h with ⟨hx, -⟩ | ⟨hx, -⟩ | ⟨dc, -, hx, -⟩
  exacts [Or.inl hx, Or.inr hx, Or.inl hx]

end Chess

namespace Chess

theorem capture_attacks {b : Board} {r1 c1 r2 c2 : Int} {color : Color}
    {p q : Piece} (hin : in_bounds r1 c1 = true) (hp : b r1 c1 = some p)
    (hpc : p.1 = color) (hmem : (r2, c2) ∈ pseudoMoves b r1 c1 color p.2)
    (hq : b r2 c2 = some q) :
    is_square_attacked b r2 c2 color = true := by
  by_cases hP : p.2 = 'p'
  · rw [hP] at hmem
    rcases mem_pawn hmem with ⟨hx, hy, hcell, -⟩ | ⟨hx, hy, -, hcell, -⟩ |
      ⟨dc, hdc, hx, hy, -, -⟩
    · rw [hcell] at hq
      cases hq
    · rw [hcell] at hq
      cases hq
    · have hpa : pawn_attack b r2 c2 color = true := by
        unfold pawn_attack
        dsimp only
        rw [List.any_eq_true]
        refine ⟨-dc, ?_, ?_⟩
        · rcases hdc with rfl | rfl <;> decide
        · have e1 : r2 - (if color = WHITE then (-1 : Int) else 1) = r1 := by
            rw [hx]; ring
          have e2 : c2 + -dc = c1 := by rw [hy]; ring
          rw [e1, e2]
          unfold pieceAt
          rw [hin, hp]
          simp [hpc, hP]
      unfold is_square_attacked
      rw [hpa]
      simp
  · by_cases hN : p.2 = 'n'
    · rw [hN] at hmem
      obtain ⟨d, hd, hx, hy, -, -⟩ := mem_knight hmem
      have hka : knight_attack b r2 c2 color = true := by
        unfold knight_attack
        rw [List.any_eq_true]
        refine ⟨(-d.1, -d.2), ?_, ?_⟩
        · simp only [knightOffsets, List.mem_cons, List.not_mem_nil,
            or_false] at hd
          rcases hd with rfl | rfl | rfl | rfl | rfl | rfl | rfl | rfl <;> decide
        · dsimp only
          have e1 : r2 + -d.1 = r1 := by rw [hx]; ring
          have e2 : c2 + -d.2 = c1 := by rw [hy]; ring
          rw [e1, e2]
          unfold pieceAt
          rw [hin, hp]
          simp [hpc, hN]
      unfold is_square_attacked
      rw [hka]
      simp
    · by_cases hS : p.2 = 'b' ∨ p.2 = 'r' ∨ p.2 = 'q'
      · obtain ⟨d, hdopt, hray⟩ := mem_slider hS hmem
        rcases hdopt with ⟨hdm, hbq⟩ | ⟨hdm, hrq⟩
        · simp only [diagDirs, List.mem_cons, List.not_mem_nil, or_false] at hdm
          have hatt : slide_attack b color 'b' 'q' diagDirs r2 c2 = true := by
            unfold slide_attack
            rw [List.any_eq_true]
            refine ⟨(-d.1, -d.2), ?_, ?_⟩
            · rcases hdm with rfl | rfl | rfl | rfl <;> decide
            · dsimp only
              apply ray_to_attack hin ?_ ?_ ?_ hray hp hpc hbq
              · rcases hdm with rfl | rfl | rfl | rfl <;> decide
              · rcases hdm with rfl | rfl | rfl | rfl <;> decide
              · rcases hdm with rfl | rfl | rfl | rfl <;> decide
          unfold is_square_attacked
          rw [hatt]
          simp
        · simp only [orthoDirs, List.mem_cons, List.not_mem_nil, or_false] at hdm
          have hatt : slide_attack b color 'r' 'q' orthoDirs r2 c2 = true := by
            unfold slide_attack
            rw [List.any_eq_true]
            refine ⟨(-d.1, -d.2), ?_, ?_⟩
            · rcases hdm with rfl | rfl | rfl | rfl <;> decide
            · dsimp only
              apply ray_to_attack hin ?_ ?_ ?_ hray hp hpc hrq
              · rcases hdm with rfl | rfl | rfl | rfl <;> decide
              · rcases hdm with rfl | rfl | rfl | rfl <;> decide
              · rcases hdm with rfl | rfl | rfl | rfl <;> decide
          unfold is_square_attacked
          rw [hatt]
          simp
      · by_cases hK : p.2 = 'k'
        · rw [hK] at hmem
          obtain ⟨d, hd, hx, hy, -, -⟩ := mem_king hmem
          have hka : king_attack b r2 c2 color = true := by
            unfold king_attack
            rw [List.any_eq_true]
            refine ⟨(-d.1, -d.2), ?_, ?_⟩
            · simp only [kingOffsets, List.mem_cons, List.not_mem_nil,
                or_false] at hd
              rcases hd with rfl | rfl | rfl | rfl | rfl | rfl | rfl | rfl <;>
                decide
            · dsimp only
              have e1 : r2 + -d.1 = r1 := by rw [hx]; ring
              have e2 : c2 + -d.2 = c1 := by rw [hy]; ring
              rw [e1, e2]
              unfold pieceAt
              rw [hin, hp]
              simp [hpc, hK]
          unfold is_square_attacked
          rw [hka]
          simp
        · rw [pseudo_other hP hN hS hK] at hmem
          cases hmem

end Chess

namespace Chess

theorem exec_no_self_check {b : Board} {color : Color} {r1 c1 r2 c2 : Int}
    {p : Piece} (hin : in_bounds r1 c1 = true) (hp : b r1 c1 = some p)
    (hpc : p.1 = color) (hlegal : (r2, c2) ∈ legal_moves_from b r1 c1 color) :
    in_check (execBoard b r1 c1 r2 c2 color) color = false := by
  obtain ⟨p', hp', hpc', hpseudo, hOK⟩ := mem_legal hlegal
  rw [hp] at hp'
  injection hp' with hp'
  subst hp'
  have hsim : in_check (simBoard b r1 c1 r2 c2) color = false := sim_not_check hOK
  obtain ⟨hbnd2, hne, hnotown⟩ := pseudo_shape hin hpseudo
  by_cases hpr : p.2 = 'p' ∧ (r2 = 0 ∨ r2 = 7)
  · rw [exec_promo_eq hp hpr hne]
    have hcell : simBoard b r1 c1 r2 c2 r2 c2 = some p := by
      rw [simBoard_dst hne, hp]
    have hk0 : p.2 ≠ 'k' := by rw [hpr.1]; decide
    have hk1 : ('q' : Char) ≠ 'k' := by decide
    have hrk := in_check_rekind hcell hk0 hk1
    rw [hpc] at hrk
    rw [hrk]
    exact hsim
  · rw [exec_eq_sim hp hpr hne]
    exact hsim

theorem kingCount_setCell {b : Board} {r0 c0 : Int} (v : Option Piece)
    (col : Color) (hin : in_bounds r0 c0 = true) :
    kingCount (setCell b r0 c0 v) col +
      (if b r0 c0 = some (col, 'k') then 1 else 0) =
    kingCount b col + (if v = some (col, 'k') then 1 else 0) := by
  unfold kingCount
  have ha : (r0, c0) ∈ allSquares := (mem_allSquares (r0, c0)).mpr hin
  have h := countP_update allSquares allSquares_nodup (r0, c0) ha
    (fun s => decide (b s.1 s.2 = some (col, 'k')))
    (fun s => decide (setCell b r0 c0 v s.1 s.2 = some (col, 'k')))
    (by
      intro s hs
      have hne : ¬(s.1 = r0 ∧ s.2 = c0) := by
        intro hcon
        exact hs (Prod.ext hcon.1 hcon.2)
      dsimp only
      rw [setCell_other b r0 c0 v hne])
  dsimp only at h
  rw [setCell_self] at h
  simp only [decide_eq_true_eq] at h
  exact h

theorem kingCount_exec {b : Board} {r1 c1 r2 c2 : Int} {color : Color}
    {p : Piece} (hin1 : in_bounds r1 c1 = true) (hin2 : in_bounds r2 c2 = true)
    (hne : ¬(r2 = r1 ∧ c2 = c1)) (hp : b r1 c1 = some p)
    (hdst : ∀ col', b r2 c2 ≠ some (col', 'k')) (col : Color) :
    kingCount (execBoard b r1 c1 r2 c2 color) col = kingCount b col := by
  have hstep1 := kingCount_setCell (b := b) none col hin1
  have hb1r2 : setCell b r1 c1 none r2 c2 = b r2 c2 :=
    setCell_other b r1 c1 none hne
  unfold execBoard
  rw [hp]
  dsimp only
  have hz1 : (if (none : Option Piece) = some (col, 'k') then 1 else 0) = 0 := by
    simp
  have hz2 : (if b r2 c2 = some (col, 'k') then 1 else 0) = 0 := by
    simp [hdst col]
  by_cases hpr : p.2 = 'p' ∧ (r2 = 0 ∨ r2 = 7)
  · rw [if_pos hpr]
    have hstep2 := kingCount_setCell (b := setCell b r1 c1 none)
      (some (color, 'q')) col hin2
    rw [hb1r2] at hstep2
    have hz3 : (if (some (color, 'q') : Option Piece) = some (col, 'k')
        then 1 else 0) = 0 := by simp
    have hz4 : (if b r1 c1 = some (col, 'k') then 1 else 0) = 0 := by
      rw [hp, if_neg]
      intro hcon
      injection hcon with hcon
      have hk2 : p.2 = 'k' := by rw [hcon]
      rw [hk2] at hpr
      exact absurd hpr.1 (by decide)
    rw [hz1, hz4] at hstep1
    rw [hz2, hz3] at hstep2
    omega
  · rw [if_neg hpr]
    have hstep2 := kingCount_setCell (b := setCell b r1 c1 none)
      (some p) col hin2
    rw [hb1r2] at hstep2
    rw [hz1] at hstep1
    rw [hz2] at hstep2
    rw [hp] at hstep1
    omega

theorem no_king_capture {b : Board} {color : Color} {r1 c1 r2 c2 : Int}
    (hcount : kingCount b (enemyOf color) = 1)
    (hnc : in_check b (enemyOf color) = false)
    (hmem : ((r1, c1), (r2, c2)) ∈ all_legal_moves b color) :
    b r2 c2 ≠ some (enemyOf color, 'k') := by
  intro hk
  obtain ⟨hin, p, hp, hpc, hlegal⟩ := mem_all_legal hmem
  obtain ⟨p', hp', hpc', hpseudo, hOK⟩ := mem_legal hlegal
  rw [hp] at hp'
  injection hp' with hp'
  subst hp'
  obtain ⟨hbnd2, -, -⟩ := pseudo_shape hin hpseudo
  have hatt := capture_attacks hin hp hpc hpseudo hk
  have hfk : find_king b (enemyOf color) = some (r2, c2) :=
    find_king_eq_of_unique hcount ((mem_allSquares _).mpr hbnd2) hk
  unfold in_check at hnc
  rw [hfk] at hnc
  dsimp only at hnc
  rw [enemyOf_enemyOf, hatt] at hnc
  cases hnc

theorem reach_inv {b : Board} {color : Color} (h : Reach b color) :
    kingCount b WHITE = 1 ∧ kingCount b BLACK = 1 ∧
      in_check b (enemyOf color) = false := by
  induction h with
  | init => exact ⟨by decide, by decide, by decide⟩
  | @step b' color' r1 c1 r2 c2 hr hm ih =>
    obtain ⟨ihw, ihb, ihc⟩ := ih
    obtain ⟨hin1, p, hp, hpc, hlegal⟩ := mem_all_legal hm
    obtain ⟨p', hp', hpc', hpseudo, hOK⟩ := mem_legal hlegal
    rw [hp] at hp'
    injection hp' with hp'
    subst hp'
    obtain ⟨hin2, hne, hnotown⟩ := pseudo_shape hin1 hpseudo
    have hdst : ∀ col', b' r2 c2 ≠ some (col', 'k') := by
      intro col' hk
      rcases color_eq_or color' col' with h1 | h1
      · subst h1
        rcases hnotown with hnone | ⟨q, hq, hqc⟩
        · rw [hk] at hnone
          cases hnone
        · rw [hk] at hq
          injection hq with hq
          rw [← hq] at hqc
          simp at hqc
      · subst h1
        have hcnt : kingCount b' (enemyOf color') = 1 := by
          cases color'
          · simpa [enemyOf, WHITE, BLACK] using ihb
          · simpa [enemyOf, WHITE, BLACK] using ihw
        exact no_king_capture hcnt ihc hm hk
    refine ⟨?_, ?_, ?_⟩
    · rw [kingCount_exec hin1 hin2 hne hp hdst]
      exact ihw
    · rw [kingCount_exec hin1 hin2 hne hp hdst]
      exact ihb
    · rw [enemyOf_enemyOf]
      exact exec_no_self_check hin1 hp hpc hlegal

end Chess

namespace Chess

theorem movePy_cases {b : Board} {src dst : List Char} {color : Color}
    {r1 c1 r2 c2 : Int}
    (hs : algebraic_to_rc src = some (r1, c1))
    (hd : algebraic_to_rc dst = some (r2, c2)) :
    (¬(in_bounds r1 c1 = true ∧ in_bounds r2 c2 = true) ∧
      movePy b src dst color = some (b, MoveResult.outOfBounds)) ∨
    ((in_bounds r1 c1 = true ∧ in_bounds r2 c2 = true) ∧
      ¬(∃ p, b r1 c1 = some p ∧ p.1 = color) ∧
      movePy b src dst color = some (b, MoveResult.noOwnPiece)) ∨
    ((in_bounds r1 c1 = true ∧ in_bounds r2 c2 = true) ∧
      (∃ p, b r1 c1 = some p ∧ p.1 = color) ∧
      ¬((r2, c2) ∈ legal_moves_from b r1 c1 color) ∧
      movePy b src dst color = some (b, MoveResult.illegalMove)) ∨
    ((in_bounds r1 c1 = true ∧ in_bounds r2 c2 = true) ∧
      (∃ p, b r1 c1 = some p ∧ p.1 = color) ∧
      ((r2, c2) ∈ legal_moves_from b r1 c1 color) ∧
      movePy b src dst color =
        some (execBoard b r1 c1 r2 c2 color, MoveResult.ok)) := by
  unfold movePy
  rw [hs, hd]
  dsimp only
  by_cases hb : ¬(in_bounds r1 c1 = true ∧ in_bounds r2 c2 = true)
  · rw [if_pos hb]
    exact Or.inl ⟨hb, rfl⟩
  · rw [if_neg hb]
    rw [not_not] at hb
    cases hcell : b r1 c1 with
    | none =>
      dsimp only
      refine Or.inr (Or.inl ⟨hb, ?_, rfl⟩)
      rintro ⟨p, hp, -⟩
      cases hp
    | some p =>
      dsimp only
      by_cases hcol : p.1 ≠ color
      · rw [if_pos hcol]
        refine Or.inr (Or.inl ⟨hb, ?_, rfl⟩)
        rintro ⟨p', hp', hpc'⟩
        injection hp' with hp'
        rw [← hp'] at hpc'
        exact hcol hpc'
      · rw [if_neg hcol]
        push_neg at hcol
        by_cases hlm : (r2, c2) ∈ legal_moves_from b r1 c1 color
        · rw [if_pos hlm]
          exact Or.inr (Or.inr (Or.inr ⟨hb, ⟨p, rfl, hcol⟩, hlm, rfl⟩))
        · rw [if_neg hlm]
          exact Or.inr (Or.inr (Or.inl ⟨hb, ⟨p, rfl, hcol⟩, hlm, rfl⟩))

theorem movePy_none_of_src {b : Board} {src dst : List Char} {color : Color}
    (hs : algebraic_to_rc src = none) : movePy b src dst color = none := by
  unfold movePy
  rw [hs]

theorem movePy_none_of_dst {b : Board} {src dst : List Char} {color : Color}
    (hd : algebraic_to_rc dst = none) : movePy b src dst color = none := by
  unfold movePy
  rw [hd]
  cases algebraic_to_rc src with
  | none => rfl
  | some s => rfl

/-- C2 counterexample: the accepted move e2 e4 mutates the caller's board in
place — after the call the board object holds the post-move position, whose
source square e2 (row 6, column 4) is empty, while the board passed in held
the white pawn there before the call. -/
theorem c2_counterexample :
    movePy initB sqE2 sqE4 WHITE =
      some (execBoard initB 6 4 4 4 WHITE, MoveResult.ok) ∧
    execBoard initB 6 4 4 4 WHITE 6 4 = none ∧
    initB 6 4 = some (WHITE, 'p') := by
  refine ⟨rfl, by decide, by decide⟩

/-- C2 amended: the executor mutates the board in place rather than leaving
it untouched; the board component returned here is the caller-visible state
after the call, so after an accepted move it holds the post-move position
(the executor's mutation of the argument), and only a rejected call leaves
the caller's board in the pre-move position. -/
theorem c2_amended {b : Board} {src dst : List Char} {color : Color}
    {b' : Board} {res : MoveResult}
    (h : movePy b src dst color = some (b', res)) :
    (res ≠ MoveResult.ok → b' = b) ∧
    (res = MoveResult.ok → ∀ r1 c1 r2 c2 : Int,
      algebraic_to_rc src = some (r1, c1) →
      algebraic_to_rc dst = some (r2, c2) →
      b' = execBoard b r1 c1 r2 c2 color) := by
  cases hs : algebraic_to_rc src with
  | none => rw [movePy_none_of_src hs] at h; cases h
  | some s =>
    cases hd : algebraic_to_rc dst with
    | none => rw [movePy_none_of_dst hd] at h; cases h
    | some d =>
      obtain ⟨r1, c1⟩ := s
      obtain ⟨r2, c2⟩ := d
      rcases @movePy_cases b src dst color r1 c1 r2 c2 hs hd with
        ⟨-, he⟩ | ⟨-, -, he⟩ | ⟨-, -, -, he⟩ | ⟨-, -, -, he⟩ <;>
        rw [he] at h <;> injection h with h <;> injection h with h1 h2 <;>
        subst h1 <;> subst h2
      · exact ⟨fun _ => rfl, fun hok => absurd hok (by decide)⟩
      · exact ⟨fun _ => rfl, fun hok => absurd hok (by decide)⟩
      · exact ⟨fun _ => rfl, fun hok => absurd hok (by decide)⟩
      · refine ⟨fun hne => absurd rfl hne, fun _ a1 a2 a3 a4 hsx hdx => ?_⟩
        injection hsx with hsx
        injection hsx with e1 e2
        injection hdx with hdx
        injection hdx with e3 e4
        subst e1
        subst e2
        subst e3
        subst e4
        rfl

theorem c2_amended_witness :
    (MoveResult.ok ≠ MoveResult.ok → execBoard initB 6 4 4 4 WHITE = initB) ∧
    (MoveResult.ok = MoveResult.ok → ∀ r1 c1 r2 c2 : Int,
      algebraic_to_rc sqE2 = some (r1, c1) →
      algebraic_to_rc sqE4 = some (r2, c2) →
      execBoard initB 6 4 4 4 WHITE = execBoard initB r1 c1 r2 c2 WHITE) :=
  @c2_amended initB sqE2 sqE4 WHITE (execBoard initB 6 4 4 4 WHITE)
    MoveResult.ok rfl

/-- C3 counterexample: the single character e is a malformed coordinate; the
source raises an IndexError reading s[1] inside algebraic_to_rc before any
check, so the executor terminates with an uncaught fault (none) rather than
one of the three structured failures. -/
theorem c3_counterexample : movePy initB ['e'] sqE4 WHITE = none := rfl

/-- C3 amended: whenever both coordinate strings parse (at least two
characters, the second a decimal digit — exactly when algebraic_to_rc
succeeds), the executor returns exactly one of ok, OutOfBounds, NoOwnPiece
or IllegalMove, decided by the bounds, ownership and legality checks in that
order, mutating the board only in the ok case; on any other input the
coordinate conversion raises an uncaught exception instead (see the
counterexample). -/
theorem c3_amended {b : Board} {color : Color} {src dst : List Char}
    {r1 c1 r2 c2 : Int} (hs : algebraic_to_rc src = some (r1, c1))
    (hd : algebraic_to_rc dst = some (r2, c2)) :
    ∃ b' res, movePy b src dst color = some (b', res) ∧
      (res = MoveResult.outOfBounds ↔
        ¬(in_bounds r1 c1 = true ∧ in_bounds r2 c2 = true)) ∧
      (res = MoveResult.noOwnPiece ↔
        (in_bounds r1 c1 = true ∧ in_bounds r2 c2 = true) ∧
        ¬∃ p, b r1 c1 = some p ∧ p.1 = color) ∧
      (res = MoveResult.illegalMove ↔
        (in_bounds r1 c1 = true ∧ in_bounds r2 c2 = true) ∧
        (∃ p, b r1 c1 = some p ∧ p.1 = color) ∧
        ¬((r2, c2) ∈ legal_moves_from b r1 c1 color)) ∧
      (res = MoveResult.ok ↔
        (in_bounds r1 c1 = true ∧ in_bounds r2 c2 = true) ∧
        (∃ p, b r1 c1 = some p ∧ p.1 = color) ∧
        (r2, c2) ∈ legal_moves_from b r1 c1 color) ∧
      (res = MoveResult.ok → b' = execBoard b r1 c1 r2 c2 color) ∧
      (res ≠ MoveResult.ok → b' = b) := by
  rcases @movePy_cases b src dst color r1 c1 r2 c2 hs hd with
    ⟨hc, he⟩ | ⟨hc1, hc2, he⟩ | ⟨hc1, hc2, hc3, he⟩ | ⟨hc1, hc2, hc3, he⟩
  · exact ⟨b, MoveResult.outOfBounds, he,
      iff_of_true rfl hc,
      iff_of_false (by decide) (fun hR => hc hR.1),
      iff_of_false (by decide) (fun hR => hc hR.1),
      iff_of_false (by decide) (fun hR => hc hR.1),
      fun hok => absurd hok (by decide),
      fun _ => rfl⟩
  · exact ⟨b, MoveResult.noOwnPiece, he,
      iff_of_false (by decide) (fun hR => hR hc1),
      iff_of_true rfl ⟨hc1, hc2⟩,
      iff_of_false (by decide) (fun hR => hc2 hR.2.1),
      iff_of_false (by decide) (fun hR => hc2 hR.2.1),
      fun hok => absurd hok (by decide),
      fun _ => rfl⟩
  · exact ⟨b, MoveResult.illegalMove, he,
      iff_of_false (by decide) (fun hR => hR hc1),
      iff_of_false (by decide) (fun hR => hR.2 hc2),
      iff_of_true rfl ⟨hc1, hc2, hc3⟩,
      iff_of_false (by decide) (fun hR => hc3 hR.2.2),
      fun hok => absurd hok (by decide),
      fun _ => rfl⟩
  · exact ⟨execBoard b r1 c1 r2 c2 color, MoveResult.ok, he,
      iff_of_false (by decide) (fun hR => hR hc1),
      iff_of_false (by decide) (fun hR => hR.2 hc2),
      iff_of_false (by decide) (fun hR => hR.2.2 hc3),
      iff_of_true rfl ⟨hc1, hc2, hc3⟩,
      fun _ => rfl,
      fun hne => absurd rfl hne⟩

/-- C10: whichever of the three rejection branches the executor takes, the
board it was given is handed back completely unchanged; writes happen only
after every validation has passed. -/
theorem c10_rejection_leaves_board {b : Board} {src dst : List Char}
    {color : Color} {b' : Board} {res : MoveResult}
    (h : movePy b src dst color = some (b', res))
    (hres : res ≠ MoveResult.ok) : b' = b := by
  cases hs : algebraic_to_rc src with
  | none => rw [movePy_none_of_src hs] at h; cases h
  | some s =>
    cases hd : algebraic_to_rc dst with
    | none => rw [movePy_none_of_dst hd] at h; cases h
    | some d =>
      obtain ⟨r1, c1⟩ := s
      obtain ⟨r2, c2⟩ := d
      rcases @movePy_cases b src dst color r1 c1 r2 c2 hs hd with
        ⟨-, he⟩ | ⟨-, -, he⟩ | ⟨-, -, -, he⟩ | ⟨-, -, -, he⟩ <;>
        rw [he] at h <;> injection h with h <;> injection h with h1 h2 <;>
        subst h1 <;> subst h2
      · rfl
      · rfl
      · rfl
      · exact absurd rfl hres

theorem c10_witness :
    movePy initB sqE2 sqE5 WHITE = some (initB, MoveResult.illegalMove) ∧
    initB = initB := by
  refine ⟨rfl, ?_⟩
  exact @c10_rejection_leaves_board initB sqE2 sqE5 WHITE initB
    MoveResult.illegalMove rfl (by decide)

end Chess

namespace Chess

/-- C1: on a board holding a king of the moving color, applying any move
produced by all_legal_moves through the executor's board mutation — the
auto-promotion included, although the self-check simulation had placed the
pawn rather than a queen on the destination — yields a board on which the
mover is not in check. -/
theorem c1_legal_moves_never_leave_check {b : Board} {color : Color}
    (hking : (find_king b color).isSome = true) {r1 c1 r2 c2 : Int}
    (hm : ((r1, c1), (r2, c2)) ∈ all_legal_moves b color) :
    in_check (execBoard b r1 c1 r2 c2 color) color = false := by
  obtain ⟨hin, p, hp, hpc, hlegal⟩ := mem_all_legal hm
  exact exec_no_self_check hin hp hpc hlegal

theorem c1_witness :
    (find_king initB WHITE).isSome = true ∧
    in_check (execBoard initB 6 4 4 4 WHITE) WHITE = false :=
  ⟨by decide, c1_legal_moves_never_leave_check (by decide) (by decide)⟩

/-- C4 counterexample: the generator query with the out-of-range source row 8
reads board[8][0] on the source's concrete list board with no bounds guard,
which raises IndexError — the none here — instead of returning the empty
move list the claim promises. -/
theorem c4_counterexample :
    legal_moves_from_py initial_rows 8 0 WHITE = none := rfl

/-- C4 amended: for a source square read the generator never fails when the
square is empty or holds the non-moving color — it returns the empty list —
and the attack detector is a total boolean query; but an out-of-range source
is not safe: a row or column at or beyond 8 raises IndexError in the
unguarded board[r][c] read (see the counterexample). -/
theorem c4_amended {b : Board} {r c : Int} {color : Color}
    (h : b r c = none ∨ ∃ p, b r c = some p ∧ p.1 ≠ color) :
    legal_moves_from b r c color = [] := by
  unfold legal_moves_from
  rcases h with hn | ⟨p, hp, hpc⟩
  · rw [hn]
  · rw [hp]
    dsimp only
    rw [if_pos hpc]

theorem c4_witness : legal_moves_from initB 3 3 WHITE = [] :=
  c4_amended (Or.inl rfl)

/-- C5: a legal pawn move to the farthest rank — row 0 for white, row 7 for
black — makes the executor place a queen of the mover's color on the
destination; any other legal move places the original piece there; in both
cases the source square is cleared. A legal pawn move can never land on the
opposite far rank, so the executor's color-blind test r2 = 0 or r2 = 7
coincides with the per-color farthest rank on legal moves. -/
theorem c5_promotion_exec {b : Board} {color : Color} {r1 c1 r2 c2 : Int}
    {p : Piece} (hm : ((r1, c1), (r2, c2)) ∈ all_legal_moves b color)
    (hp : b r1 c1 = some p) :
    ((p.2 = 'p' ∧ r2 = (if color = WHITE then (0 : Int) else 7)) →
      execBoard b r1 c1 r2 c2 color r2 c2 = some (color, 'q')) ∧
    (¬(p.2 = 'p' ∧ r2 = (if color = WHITE then (0 : Int) else 7)) →
      execBoard b r1 c1 r2 c2 color r2 c2 = some p) ∧
    execBoard b r1 c1 r2 c2 color r1 c1 = none := by
  obtain ⟨hin, p', hp', hpc, hlegal⟩ := mem_all_legal hm
  rw [hp] at hp'
  injection hp' with hp'
  subst hp'
  obtain ⟨p'', hp'', -, hpseudo, -⟩ := mem_legal hlegal
  rw [hp] at hp''
  injection hp'' with hp''
  subst hp''
  obtain ⟨hin2, hne, -⟩ := pseudo_shape hin hpseudo
  have hne' : ¬(r1 = r2 ∧ c1 = c2) := fun hcon => hne ⟨hcon.1.symm, hcon.2.symm⟩
  rw [in_bounds_iff] at hin
  refine ⟨?_, ?_, ?_⟩
  · rintro ⟨hpp, hrow⟩
    have hcond : p.2 = 'p' ∧ (r2 = 0 ∨ r2 = 7) := by
      refine ⟨hpp, ?_⟩
      by_cases hw : color = WHITE <;> simp [hw] at hrow
      · exact Or.inl hrow
      · exact Or.inr hrow
    unfold execBoard
    rw [hp]
    dsimp only
    rw [if_pos hcond, setCell_self]
  · intro hnp
    have hncond : ¬(p.2 = 'p' ∧ (r2 = 0 ∨ r2 = 7)) := by
      rintro ⟨hpp, hor⟩
      apply hnp
      refine ⟨hpp, ?_⟩
      have hps := hpseudo
      rw [hpp] at hps
      have hrows := pawn_rows hps
      by_cases hw : color = WHITE
      · simp [hw] at hrows ⊢
        rcases hor with h0 | h7
        · exact h0
        · exfalso
          rcases hrows with hr | hr <;> omega
      · simp [hw] at hrows ⊢
        rcases hor with h0 | h7
        · exfalso
          rcases hrows with hr | hr <;> omega
        · exact h7
    unfold execBoard
    rw [hp]
    dsimp only
    rw [if_neg hncond, setCell_self]
  · unfold execBoard
    rw [hp]
    dsimp only
    by_cases hpr : p.2 = 'p' ∧ (r2 = 0 ∨ r2 = 7)
    · rw [if_pos hpr, setCell_other _ _ _ _ hne', setCell_self]
    · rw [if_neg hpr, setCell_other _ _ _ _ hne', setCell_self]

theorem c5_witness :
    (((WHITE, 'p') : Piece).2 = 'p' ∧ (0 : Int) = (if WHITE = WHITE then (0 : Int) else 7) →
      execBoard promoB 1 0 0 0 WHITE 0 0 = some (WHITE, 'q')) ∧
    (¬(((WHITE, 'p') : Piece).2 = 'p' ∧ (0 : Int) = (if WHITE = WHITE then (0 : Int) else 7)) →
      execBoard promoB 1 0 0 0 WHITE 0 0 = some (WHITE, 'p')) ∧
    execBoard promoB 1 0 0 0 WHITE 1 0 = none :=
  @c5_promotion_exec promoB WHITE 1 0 0 0 (WHITE, 'p') (by decide) rfl

/-- C6 counterexample: on the three-piece board mateB black is both in check
and checkmated at once, so the three predicates are not pairwise mutually
exclusive as claimed — inCheck and isCheckmate hold together. -/
theorem c6_counterexample :
    (find_king mateB BLACK).isSome = true ∧
    in_check mateB BLACK = true ∧ is_checkmate mateB BLACK = true := by
  refine ⟨by decide, by decide, by decide⟩

/-- C6 amended: isCheckmate and isStalemate are mutually exclusive and both
false whenever allLegalMoves is non-empty; isCheckmate entails inCheck and
isStalemate entails its negation, so checkmate, stalemate, check-but-not-mate
and ongoing partition the positions — but inCheck itself is not exclusive
with isCheckmate, since every checkmate position is also in check. -/
theorem c6_amended {b : Board} {color : Color}
    (hking : (find_king b color).isSome = true) :
    ¬(is_checkmate b color = true ∧ is_stalemate b color = true) ∧
    (all_legal_moves b color ≠ [] →
      is_checkmate b color = false ∧ is_stalemate b color = false) ∧
    (is_checkmate b color = true → in_check b color = true) ∧
    (is_stalemate b color = true → in_check b color = false) := by
  unfold is_checkmate is_stalemate
  cases hic : in_check b color <;> simp [hic]

theorem c6_amended_witness :
    ¬(is_checkmate initB WHITE = true ∧ is_stalemate initB WHITE = true) ∧
    (all_legal_moves initB WHITE ≠ [] →
      is_checkmate initB WHITE = false ∧ is_stalemate initB WHITE = false) ∧
    (is_checkmate initB WHITE = true → in_check initB WHITE = true) ∧
    (is_stalemate initB WHITE = true → in_check initB WHITE = false) :=
  c6_amended (by decide)

/-- C7 counterexample: the fool's mate position fm4 with white to move is
reachable, and the non-moving side black has the legal move h4 to e1 — from
(4,7) to (7,4) — whose destination square holds white's king; so it is not
true that no legal move of either side targets the enemy king in reachable
states. -/
theorem c7_counterexample :
    Reach fm4 WHITE ∧ ((4, 7), (7, 4)) ∈ all_legal_moves fm4 BLACK ∧
    fm4 7 4 = some (enemyOf BLACK, 'k') := by
  refine ⟨?_, by decide, by decide⟩
  have h1 : Reach fm1 BLACK := Reach.step Reach.init (by decide)
  have h2 : Reach fm2 WHITE := Reach.step h1 (by decide)
  have h3 : Reach fm3 BLACK := Reach.step h2 (by decide)
  exact Reach.step h3 (by decide)

/-- C7 amended: in every state reachable from the initial board by legal
moves, each color has exactly one king, and no legal move of the side to
move has the opposing king's square as its destination; the claim's wider
quantification over both sides fails at checkmate positions (see the
counterexample). -/
theorem c7_amended {b : Board} {color : Color} (h : Reach b color) :
    kingCount b WHITE = 1 ∧ kingCount b BLACK = 1 ∧
    ∀ r1 c1 r2 c2 : Int, ((r1, c1), (r2, c2)) ∈ all_legal_moves b color →
      b r2 c2 ≠ some (enemyOf color, 'k') := by
  obtain ⟨hw, hb2, hc⟩ := reach_inv h
  refine ⟨hw, hb2, fun r1 c1 r2 c2 hm => ?_⟩
  have hcnt : kingCount b (enemyOf color) = 1 := by
    cases color
    · simpa [enemyOf, WHITE, BLACK] using hb2
    · simpa [enemyOf, WHITE, BLACK] using hw
  exact no_king_capture hcnt hc hm

theorem c7_witness :
    kingCount initB WHITE = 1 ∧ kingCount initB BLACK = 1 ∧
    ∀ r1 c1 r2 c2 : Int, ((r1, c1), (r2, c2)) ∈ all_legal_moves initB WHITE →
      initB r2 c2 ≠ some (enemyOf WHITE, 'k') :=
  c7_amended Reach.init

/-- C8: from the initial board the executor accepts f2 f3, e7 e5, g2 g4 and
d8 h4 in turn, and on the resulting board white is checkmated. -/
theorem c8_fools_mate :
    movePy initB sqF2 sqF3 WHITE = some (fm1, MoveResult.ok) ∧
    movePy fm1 sqE7 sqE5 BLACK = some (fm2, MoveResult.ok) ∧
    movePy fm2 sqG2 sqG4 WHITE = some (fm3, MoveResult.ok) ∧
    movePy fm3 sqD8 sqH4 BLACK = some (fm4, MoveResult.ok) ∧
    is_checkmate fm4 WHITE = true := by
  exact ⟨rfl, rfl, rfl, rfl, by decide⟩

/-- C9: a file letter, lower or upper case, maps to its column directly and a
rank digit n to row 8 - n; converting an in-range square to algebraic text
and back is the identity. -/
theorem c9_coordinate_roundtrip :
    (∀ f n : Nat, f < 8 → 1 ≤ n → n ≤ 8 →
      algebraic_to_rc [Char.ofNat (97 + f), Char.ofNat (48 + n)] =
        some (8 - (n : Int), (f : Int)) ∧
      algebraic_to_rc [Char.ofNat (65 + f), Char.ofNat (48 + n)] =
        some (8 - (n : Int), (f : Int))) ∧
    (∀ r c : Int, 0 ≤ r → r < 8 → 0 ≤ c → c < 8 →
      algebraic_to_rc (rc_to_algebraic r c) = some (r, c)) := by
  constructor
  · intro f n hf hn1 hn8
    interval_cases f <;> interval_cases n <;> exact ⟨by decide, by decide⟩
  · intro r c hr0 hr8 hc0 hc8
    interval_cases r <;> interval_cases c <;> decide

theorem c9_witness :
    (algebraic_to_rc [Char.ofNat (97 + 4), Char.ofNat (48 + 2)] =
      some (8 - ((2 : Nat) : Int), ((4 : Nat) : Int)) ∧
     algebraic_to_rc [Char.ofNat (65 + 4), Char.ofNat (48 + 2)] =
      some (8 - ((2 : Nat) : Int), ((4 : Nat) : Int))) ∧
    algebraic_to_rc (rc_to_algebraic 6 4) = some (6, 4) :=
  ⟨c9_coordinate_roundtrip.1 4 2 (by decide) (by decide) (by decide),
   c9_coordinate_roundtrip.2 6 4 (by decide) (by decide) (by decide) (by decide)⟩

end Chess

namespace Chess

theorem c3_witness :
    ∃ b' res, movePy initB sqE2 sqE3 WHITE = some (b', res) ∧
      (res = MoveResult.outOfBounds ↔
        ¬(in_bounds 6 4 = true ∧ in_bounds 5 4 = true)) ∧
      (res = MoveResult.noOwnPiece ↔
        (in_bounds 6 4 = true ∧ in_bounds 5 4 = true) ∧
        ¬∃ p, initB 6 4 = some p ∧ p.1 = WHITE) ∧
      (res = MoveResult.illegalMove ↔
        (in_bounds 6 4 = true ∧ in_bounds 5 4 = true) ∧
        (∃ p, initB 6 4 = some p ∧ p.1 = WHITE) ∧
        ¬((5, 4) ∈ legal_moves_from initB 6 4 WHITE)) ∧
      (res = MoveResult.ok ↔
        (in_bounds 6 4 = true ∧ in_bounds 5 4 = true) ∧
        (∃ p, initB 6 4 = some p ∧ p.1 = WHITE) ∧
        (5, 4) ∈ legal_moves_from initB 6 4 WHITE) ∧
      (res = MoveResult.ok → b' = execBoard initB 6 4 5 4 WHITE) ∧
      (res ≠ MoveResult.ok → b' = initB) :=
  @c3_amended initB WHITE sqE2 sqE3 6 4 5 4 rfl rfl

end Chess
